import Mathlib

/-!
Shallow embedding of the f2chat polynomial ring engine and sheaf router
(`lib/crypto/polynomial.cc`, `lib/crypto/routing_polynomial.cc`,
`lib/network/gluing.cc`, `lib/network/patch.cc`, `lib/network/sheaf_router.cc`)
with the active `SafeParams` ring configuration
(`lib/crypto/polynomial_params.h`: kDegree = 64, kModulus = 65537,
kNumCharacters = 8).

C++ `double` arithmetic is embedded as exact arithmetic: rationals for the
linear-algebra code, and exact elements of Z[zeta_8] for the character
projection DFT (whose twiddle factors cos/sin(2*pi*e/8) lie in Z[sqrt 2]/2).
`std::round` / `std::sqrt` on those exact values are embedded by exact
integer rounding and by the equivalence `sqrt s < t <-> 0 < t and s < t^2`
for `s >= 0`.
-/

-- Batteries marks the `Rat` field operations `@[irreducible]`, which blocks
-- kernel evaluation of the concrete rational computations below; restore the
-- default reducibility so that `decide` can evaluate them.
set_option allowUnsafeReducibility true in
attribute [semireducible] Rat.add Rat.mul Rat.inv Rat.sub

namespace F2chat

/-- `RingParams::kDegree` of the active `SafeParams` configuration. -/
def kDegree : ℕ := 64

/-- `RingParams::kModulus`. -/
def kModulus : ℤ := 65537

/-- `RingParams::kNumCharacters`. -/
def kNumCharacters : ℕ := 8

/-- Helper `Mod` from polynomial.cc: modular reduction into `[0, modulus)`.
The C++ code takes the truncated `%` and adds `modulus` when negative, which
for a positive modulus is exactly the Euclidean `Int.emod`. -/
def Mod (value modulus : ℤ) : ℤ := value % modulus

/-- `Polynomial::ReduceMod`: reduce a coefficient modulo `kModulus`. -/
def reduceMod (value : ℤ) : ℤ := Mod value kModulus

/-- Helper `ModMul` from polynomial.cc. -/
def ModMul (a b modulus : ℤ) : ℤ := Mod (a * b) modulus

/-- One position of the folding pass inside `Polynomial::ReduceModXn`:
the running `reduced[pos]` accumulator over all indices `i` congruent to
`pos` mod `kDegree`, adding even cycles and subtracting odd cycles, reducing
mod `kModulus` at each step exactly as the C++ loop does. -/
def passAt (coeffs : List ℤ) (pos : ℕ) : ℤ :=
  (((List.range coeffs.length).filter (fun i => i % kDegree = pos)).foldl
    (fun acc i =>
      if (i / kDegree) % 2 = 0 then reduceMod (acc + coeffs.getD i 0)
      else reduceMod (acc - coeffs.getD i 0)) 0)

/-- `Polynomial::ReduceModXn`: while the coefficient vector is longer than
`kDegree`, fold blocks of length `kDegree` with alternating signs.  A single
pass always produces exactly `kDegree` coefficients, so the C++ `while` loop
runs at most once. -/
def reduceModXn (coeffs : List ℤ) : List ℤ :=
  if kDegree < coeffs.length then (List.range kDegree).map (passAt coeffs)
  else coeffs

/-- The coefficient normalisation performed by the
`Polynomial(const std::vector<int64_t>&)` constructor: reduce every entry mod
`kModulus`, zero-pad up to `kDegree`, and reduce mod `(x^kDegree + 1)` when
longer than `kDegree`. -/
def normCoeffs (coefficients : List ℤ) : List ℤ :=
  reduceModXn ((coefficients.map reduceMod) ++
    List.replicate (kDegree - coefficients.length) 0)

instance instDecEqExcept {ε α : Type} [DecidableEq ε] [DecidableEq α] :
    DecidableEq (Except ε α)
  | .error e, .error f =>
      if h : e = f then .isTrue (by rw [h])
      else .isFalse (fun hc => h (by injection hc))
  | .error _, .ok _ => .isFalse (fun hc => by injection hc)
  | .ok _, .error _ => .isFalse (fun hc => by injection hc)
  | .ok a, .ok b =>
      if h : a = b then .isTrue (by rw [h])
      else .isFalse (fun hc => h (by injection hc))

/-- `f2chat::Polynomial`: the coefficient vector of a ring element. -/
structure Polynomial where
  coefficients : List ℤ
deriving DecidableEq

/-- The coefficient-vector constructor. -/
def Polynomial.ofList (l : List ℤ) : Polynomial := ⟨normCoeffs l⟩

/-- The default constructor `Polynomial()`: the zero polynomial. -/
def Polynomial.zeroPoly : Polynomial := ⟨List.replicate kDegree 0⟩

/-- `Polynomial::Decode`: the coefficient vector. -/
def Polynomial.decode (p : Polynomial) : List ℤ := p.coefficients

/-- `Polynomial::Add`. -/
def Polynomial.add (a b : Polynomial) : Polynomial :=
  .ofList ((List.range kDegree).map fun i =>
    reduceMod (a.coefficients.getD i 0 + b.coefficients.getD i 0))

/-- `Polynomial::Subtract`. -/
def Polynomial.sub (a b : Polynomial) : Polynomial :=
  .ofList ((List.range kDegree).map fun i =>
    reduceMod (a.coefficients.getD i 0 - b.coefficients.getD i 0))

/-- `Polynomial::MultiplyScalar`. -/
def Polynomial.multiplyScalar (a : Polynomial) (scalar : ℤ) : Polynomial :=
  .ofList ((List.range kDegree).map fun i =>
    ModMul (a.coefficients.getD i 0) scalar kModulus)

/-- `Polynomial::Negate`. -/
def Polynomial.negate (a : Polynomial) : Polynomial :=
  .ofList ((List.range kDegree).map fun i =>
    reduceMod (-(a.coefficients.getD i 0)))

/-- `Polynomial::Rotate`: cyclic right shift by `positions mod kDegree`.
The C++ normalisation `((positions % n) + n) % n` of a possibly negative
count equals the Euclidean `positions % n`. -/
def Polynomial.rotate (a : Polynomial) (positions : ℤ) : Polynomial :=
  let shift : ℕ := (positions % (kDegree : ℤ)).toNat
  .ofList ((List.range kDegree).map fun j =>
    a.coefficients.getD ((j + kDegree - shift) % kDegree) 0)

/-- `Polynomial::Multiply`.  The FFT / pointwise-product / inverse-FFT
pipeline, executed in exact complex arithmetic, computes the linear
convolution of the two zero-padded coefficient vectors, and rounding the
real parts returns those exact integer convolution values; the constructor
then reduces mod `(x^kDegree + 1, kModulus)`.  Embedded as the exact
convolution of length `2 * kDegree` (entries past `2*kDegree - 1` are zero,
exactly as the FFT buffer of length `NextPowerOf2(2*kDegree)` yields). -/
def Polynomial.multiply (a b : Polynomial) : Polynomial :=
  .ofList ((List.range (2 * kDegree)).map fun k =>
    (List.range kDegree).foldl (fun acc i =>
      if i ≤ k ∧ k - i < kDegree then
        acc + a.coefficients.getD i 0 * b.coefficients.getD (k - i) 0
      else acc) 0)

/-- Error taxonomy of `absl::Status` as used by the embedded code. -/
inductive StatusErr where
  | invalidArgument
  | failedPrecondition
  | internal
deriving DecidableEq

/-- `Polynomial::Encode`. -/
def Polynomial.encode (values : List ℤ) : Except StatusErr Polynomial :=
  if kDegree < values.length then .error .invalidArgument
  else .ok (.ofList values)

/-- A polynomial satisfying the representation invariant: exactly `kDegree`
coefficients, each in `[0, kModulus)`. -/
def IsCanonical (p : Polynomial) : Prop :=
  p.coefficients.length = kDegree ∧
    ∀ c ∈ p.coefficients, 0 ≤ c ∧ c < kModulus

instance (p : Polynomial) : Decidable (IsCanonical p) := by
  unfold IsCanonical; infer_instance

-- Basic facts about the normalisation pipeline.

theorem reduceMod_nonneg (v : ℤ) : 0 ≤ reduceMod v :=
  Int.emod_nonneg v (by norm_num [kModulus])

theorem reduceMod_lt (v : ℤ) : reduceMod v < kModulus :=
  Int.emod_lt_of_pos v (by norm_num [kModulus])

theorem reduceMod_eq_of_canonical {v : ℤ} (h0 : 0 ≤ v) (h1 : v < kModulus) :
    reduceMod v = v :=
  Int.emod_eq_of_lt h0 h1

theorem foldl_reduceStep_bounds (coeffs : List ℤ) (l : List ℕ) :
    ∀ acc : ℤ, 0 ≤ acc → acc < kModulus →
      0 ≤ (l.foldl (fun acc i =>
            if (i / kDegree) % 2 = 0 then reduceMod (acc + coeffs.getD i 0)
            else reduceMod (acc - coeffs.getD i 0)) acc) ∧
        (l.foldl (fun acc i =>
            if (i / kDegree) % 2 = 0 then reduceMod (acc + coeffs.getD i 0)
            else reduceMod (acc - coeffs.getD i 0)) acc) < kModulus := by
  induction l with
  | nil => intro acc h0 h1; exact ⟨h0, h1⟩
  | cons x xs ih =>
      intro acc h0 h1
      simp only [List.foldl_cons]
      by_cases hx : (x / kDegree) % 2 = 0
      · simp only [hx, if_pos rfl]
        exact ih _ (reduceMod_nonneg _) (reduceMod_lt _)
      · simp only [if_neg hx]
        exact ih _ (reduceMod_nonneg _) (reduceMod_lt _)

theorem passAt_bounds (coeffs : List ℤ) (pos : ℕ) :
    0 ≤ passAt coeffs pos ∧ passAt coeffs pos < kModulus := by
  unfold passAt
  exact foldl_reduceStep_bounds coeffs _ 0 (le_refl 0) (by norm_num [kModulus])

theorem normCoeffs_length (l : List ℤ) : (normCoeffs l).length = kDegree := by
  unfold normCoeffs reduceModXn
  split
  · simp
  · next h =>
    simp only [List.length_append, List.length_map, List.length_replicate] at h ⊢
    omega

theorem normCoeffs_bounds (l : List ℤ) :
    ∀ c ∈ normCoeffs l, 0 ≤ c ∧ c < kModulus := by
  unfold normCoeffs reduceModXn
  by_cases h : kDegree < (l.map reduceMod ++
      List.replicate (kDegree - l.length) 0).length
  · simp only [if_pos h]
    intro c hc
    rcases List.mem_map.mp hc with ⟨pos, _, rfl⟩
    exact passAt_bounds _ pos
  · simp only [if_neg h]
    intro c hc
    rcases List.mem_append.mp hc with hc | hc
    · rcases List.mem_map.mp hc with ⟨v, _, rfl⟩
      exact ⟨reduceMod_nonneg v, reduceMod_lt v⟩
    · have : c = 0 := List.eq_of_mem_replicate hc
      subst this
      exact ⟨le_refl 0, by norm_num [kModulus]⟩

theorem ofList_isCanonical (l : List ℤ) : IsCanonical (Polynomial.ofList l) :=
  ⟨normCoeffs_length l, normCoeffs_bounds l⟩

/-- Normalisation is the identity on lists that already satisfy the
representation invariant. -/
theorem normCoeffs_of_canonical {l : List ℤ} (hlen : l.length = kDegree)
    (hb : ∀ c ∈ l, 0 ≤ c ∧ c < kModulus) : normCoeffs l = l := by
  unfold normCoeffs reduceModXn
  have hmap : l.map reduceMod = l := by
    conv_rhs => rw [← List.map_id l]
    apply List.map_congr_left
    intro c hc
    exact reduceMod_eq_of_canonical (hb c hc).1 (hb c hc).2
  simp [hmap, hlen]

theorem ofList_of_canonical {p : Polynomial} (h : IsCanonical p) :
    Polynomial.ofList p.coefficients = p := by
  cases p with
  | mk l => simp only [Polynomial.ofList, normCoeffs_of_canonical h.1 h.2]

/-- A list produced by mapping an already-reduced function over
`List.range kDegree` passes through the constructor unchanged. -/
theorem normCoeffs_rangeMap (f : ℕ → ℤ)
    (hf : ∀ i, 0 ≤ f i ∧ f i < kModulus) :
    normCoeffs ((List.range kDegree).map f) = (List.range kDegree).map f := by
  apply normCoeffs_of_canonical
  · simp
  · intro c hc
    rcases List.mem_map.mp hc with ⟨i, _, rfl⟩
    exact hf i

theorem ofList_rangeMap_reduceMod (g : ℕ → ℤ) :
    (Polynomial.ofList ((List.range kDegree).map fun i => reduceMod (g i))).coefficients
      = (List.range kDegree).map fun i => reduceMod (g i) := by
  simp only [Polynomial.ofList]
  exact normCoeffs_rangeMap _ (fun i => ⟨reduceMod_nonneg _, reduceMod_lt _⟩)

/-! ## Character projection (`Polynomial::ProjectToCharacter`)

The loop accumulates `sum += omega * coeff` with
`omega = exp(-2*pi*i*(j*k)/8)`, an 8th root of unity `zeta^(j*k mod 8)`
(`zeta = exp(-2*pi*i/8)`).  Its real part is `reA e + reB e * sqrt 2 / 2`
with integers `reA`, `reB` below, so the exact real part of the accumulated
sum is `A + B * sqrt 2 / 2` for the integer sums `A`, `B`, and the projected
slot is `ReduceMod(round((2*A + B*sqrt 2) / 16))`.  The rounding of such a
quadratic irrational is embedded exactly via the integer square root. -/

/-- Integer part of `Re(zeta^e)`: `cos(2*pi*e/8)` equals
`reA e + reB e * sqrt 2 / 2`. -/
def reA (e : ℕ) : ℤ := if e = 0 then 1 else if e = 4 then -1 else 0

/-- `sqrt 2 / 2` part of `Re(zeta^e)`. -/
def reB (e : ℕ) : ℤ :=
  if e = 1 ∨ e = 7 then 1 else if e = 3 ∨ e = 5 then -1 else 0

/-- `⌊a * sqrt 2⌋`, computed with the integer square root
(`2 * a^2` is never a perfect square for `a ≠ 0`). -/
def floorSqrt2Mul (a : ℤ) : ℤ :=
  if 0 ≤ a then (Nat.sqrt (2 * a.toNat ^ 2) : ℤ)
  else -(Nat.sqrt (2 * (-a).toNat ^ 2) : ℤ) - 1

/-- Decides `0 ≤ p + q * sqrt 2` by squaring. -/
def geZeroSqrt2 (p q : ℤ) : Bool :=
  if 0 ≤ q then (0 ≤ p || p ^ 2 ≤ 2 * q ^ 2)
  else (0 ≤ p && 2 * q ^ 2 ≤ p ^ 2)

/-- `std::round((p + q * sqrt 2) / den)` for `den > 0`: round half away from
zero, using `⌊(n + x) / den⌋ = (n + ⌊x⌋).fdiv den`. -/
def roundSqrt2Div (p q den : ℤ) : ℤ :=
  if geZeroSqrt2 p q then (2 * p + den + floorSqrt2Mul (2 * q)).fdiv (2 * den)
  else -((-2 * p + den + floorSqrt2Mul (-2 * q)).fdiv (2 * den))

/-- The (always succeeding) body of `Polynomial::ProjectToCharacter` for an
in-range character index `j`: slot `s` is
`ReduceMod(round(Re(sum) / kNumCharacters))` where
`sum = Σ_{k<8} zeta^(j*k mod 8) * coeff[(s*8 + k) % kDegree]`. -/
def Polynomial.projectRaw (p : Polynomial) (j : ℕ) : Polynomial :=
  .ofList ((List.range kDegree).map fun slot =>
    let A : ℤ := (List.range kNumCharacters).foldl (fun acc k =>
      acc + reA ((j * k) % 8) * p.coefficients.getD ((slot * kNumCharacters + k) % kDegree) 0) 0
    let B : ℤ := (List.range kNumCharacters).foldl (fun acc k =>
      acc + reB ((j * k) % 8) * p.coefficients.getD ((slot * kNumCharacters + k) % kDegree) 0) 0
    reduceMod (roundSqrt2Div (2 * A) B 16))

/-- `Polynomial::ProjectToCharacter`. -/
def Polynomial.projectToCharacter (p : Polynomial) (characterIndex : ℤ) :
    Except StatusErr Polynomial :=
  if characterIndex < 0 ∨ (kNumCharacters : ℤ) ≤ characterIndex then
    .error .invalidArgument
  else .ok (p.projectRaw characterIndex.toNat)

/-- `Polynomial::ProjectToAllCharacters`: push each succeeding projection in
index order (failures are skipped, mirroring the `if (proj.ok())` push). -/
def Polynomial.projectToAllCharacters (p : Polynomial) : List Polynomial :=
  (List.range kNumCharacters).filterMap fun (j : ℕ) =>
    (p.projectToCharacter (j : ℤ)).toOption

/-! ## Routing codec (`lib/crypto/routing_polynomial.cc`) -/

/-- `RoutingWeights`: `weights[position][character]`, `double` entries
embedded as rationals. -/
structure RoutingWeights where
  weights : List (List ℚ)
deriving DecidableEq

/-- `RoutingWeights::num_positions`. -/
def RoutingWeights.numPositions (w : RoutingWeights) : ℕ := w.weights.length

/-- `RoutingWeights::num_characters`. -/
def RoutingWeights.numCharacters (w : RoutingWeights) : ℕ :=
  match w.weights with
  | [] => 0
  | r :: _ => r.length

/-- `RoutingPolynomial::EncodeRoute`: `message.Add(destination)`
(the source polynomial is accepted but unused). -/
def encodeRoute (sourcePoly destinationPoly messagePoly : Polynomial) :
    Polynomial :=
  messagePoly.add destinationPoly

/-- `RoutingPolynomial::ExtractMessage`: `routed.Subtract(myId)`,
always returned as `ok`. -/
def extractMessage (routedPoly myPolyId : Polynomial) :
    Except StatusErr Polynomial :=
  .ok (routedPoly.sub myPolyId)

/-- Floor of a rational in its kernel-computable `num / den` form
(equal to `⌊x⌋` by `Rat.floor_def`; see `ratFloor_eq`). -/
def ratFloor (x : ℚ) : ℤ := x.num / x.den

theorem ratFloor_eq (x : ℚ) : ratFloor x = ⌊x⌋ := Rat.floor_def.symm

/-- `std::round` on an exact rational (half away from zero). -/
def rroundQ (x : ℚ) : ℤ :=
  if 0 ≤ x then ratFloor (x + 1 / 2) else -(ratFloor (-x + 1 / 2))

/-- `RoutingPolynomial::ApplyRoutingWeights`. -/
def applyRoutingWeights (input : Polynomial) (weights : RoutingWeights) :
    Polynomial :=
  let numPositions := weights.numPositions
  let numCharacters := weights.numCharacters
  let characterProjections := input.projectToAllCharacters
  if characterProjections.length ≠ numCharacters then input
  else
    .ofList ((List.range kDegree).map fun p =>
      if p < numPositions then
        rroundQ ((List.range numCharacters).foldl (fun acc j =>
          let projCoeffs := (characterProjections.getD j Polynomial.zeroPoly).decode
          if p < projCoeffs.length then
            acc + ((weights.weights.getD p []).getD j 0) * ((projCoeffs.getD p 0 : ℤ) : ℚ)
          else acc) 0)
      else 0)

/-- `RoutingPolynomial::ExtractMailboxID`: XOR-fold the first 64
coefficients, each shifted left by `i % 32`.  All operands are nonnegative,
so the `int64_t` XOR is the natural-number XOR. -/
def extractMailboxID (poly : Polynomial) : ℤ :=
  ((List.range 64).foldl (fun h i =>
    h ^^^ ((poly.coefficients.getD i 0).toNat <<< (i % 32))) 0 : ℕ)

/-- `RoutingPolynomial::EmbedMailboxID`: bit `i` of the id

(arithmetic shift `(id >> i) & 1`, i.e. `(id.fdiv 2^i).emod 2`) becomes
coefficient `i` for `i < 64`.  The message-append loop writes
`embedded[i + 64]`, which at `kDegree = 64` is out of range for every `i`,
so nothing of the message is stored. -/
def embedMailboxID (mailboxId : ℤ) (message : Polynomial) : Polynomial :=
  .ofList ((List.range 64).map fun i => ((mailboxId.fdiv (2 ^ i)).emod 2))

/-! ## Gluing constraints (`lib/network/gluing.cc`) -/

/-- `GluingConstraint::Type`. -/
inductive GluingType where
  | continuity
  | periodicity
  | custom
deriving DecidableEq

/-- `f2chat::GluingConstraint` (the constraint matrix/rhs members are only
populated during system assembly and never read by the embedded code). -/
structure GluingConstraint where
  patch1Id : String
  patch2Id : String
  boundaryPoly : Polynomial
  type : GluingType
deriving DecidableEq

/-- `GluingConstraint::Verify`: equal decoded lengths, then
`sqrt(Σ diff²) < tolerance`.  For the nonnegative radicand `S`,
`sqrt S < t` holds exactly when `0 < t` and `S < t²`, which is how the
square-root comparison is embedded over the rationals. -/
def GluingConstraint.verify (g : GluingConstraint) (routedPoly : Polynomial)
    (tolerance : ℚ) : Bool :=
  let routedCoeffs := routedPoly.decode
  let boundaryCoeffs := g.boundaryPoly.decode
  if routedCoeffs.length ≠ boundaryCoeffs.length then false
  else
    let errSq : ℚ :=
      (List.zipWith (fun a b => (((a - b : ℤ) : ℚ)) ^ 2) routedCoeffs boundaryCoeffs).sum
    decide (0 < tolerance ∧ errSq < tolerance ^ 2)

/-- `GluingConstraintBuilder::CreateContinuity`. -/
def createContinuity (patch1Id patch2Id : String)
    (boundaryPoly : Polynomial) : GluingConstraint :=
  ⟨patch1Id, patch2Id, boundaryPoly, .continuity⟩

/-! ## Patches (`lib/network/patch.cc`) -/

/-- `f2chat::Patch`. -/
structure Patch where
  patchId : String
  weights : RoutingWeights
deriving DecidableEq

/-- `Patch::ApplyLocalRouting`. -/
def Patch.applyLocalRouting (patch : Patch) (input : Polynomial) : Polynomial :=
  applyRoutingWeights input patch.weights

/-! ## Sheaf router (`lib/network/sheaf_router.cc`) -/

/-- `f2chat::RoutingExample`. -/
structure RoutingExample where
  sourcePoly : Polynomial
  destinationPoly : Polynomial
  messagePoly : Polynomial
  expectedOutput : Polynomial
deriving DecidableEq

/-- `f2chat::RoutingProblem`. -/
structure RoutingProblem where
  patches : List Patch
  gluings : List GluingConstraint
  examples : List RoutingExample
deriving DecidableEq

/-- `f2chat::RoutingResult`. -/
structure RoutingResult where
  patchWeights : List RoutingWeights
  obstruction : ℚ
  success : Bool
deriving DecidableEq

/-- `f2chat::SheafRouter` state: the problem plus the cached
`last_result_`. -/
structure SheafRouter where
  problem : RoutingProblem
  lastResult : RoutingResult
deriving DecidableEq

/-- The default-constructed `last_result_` of a fresh router: empty weight
vector (the only field `Route` consults before learning). -/
def emptyResult : RoutingResult := ⟨[], 0, false⟩

/-- `SheafRouter::Create`. -/
def SheafRouter.create (problem : RoutingProblem) :
    Except StatusErr SheafRouter :=
  if problem.patches.isEmpty then .error .invalidArgument
  else .ok ⟨problem, emptyResult⟩

/-- `SheafRouter::AssembleLocalSystem`: one design-matrix row per training
example (the flattened character projections of its message polynomial),
target = the first coefficient of the expected output; a dummy `1×1`
identity system when there are no examples. -/
def assembleLocalSystem (problem : RoutingProblem) :
    List (List ℚ) × List ℚ :=
  let A := problem.examples.map (fun ex =>
    (ex.messagePoly.projectToAllCharacters.map
      (fun proj => proj.decode.map (fun c => ((c : ℤ) : ℚ)))).flatten)
  let b := problem.examples.map (fun ex =>
    ((ex.expectedOutput.decode.headD 0 : ℤ) : ℚ))
  if A.isEmpty then ([[1]], [1]) else (A, b)

/-- `SheafRouter::AssembleGluingSystem`: one all-zero row of length
`kNumCharacters * kDegree` per gluing constraint (the acknowledged stub). -/
def assembleGluingSystem (problem : RoutingProblem) : List (List ℚ) :=
  problem.gluings.map (fun _ =>
    List.replicate (kNumCharacters * kDegree) (0 : ℚ))

/-- The assembled global system `A_sheaf`, `b_sheaf` of
`SheafRouter::LearnRouting` (local rows then gluing rows, gluing targets
zero). -/
def assembleSheafSystem (problem : RoutingProblem) :
    List (List ℚ) × List ℚ :=
  let (Alocal, blocal) := assembleLocalSystem problem
  let Agluing := assembleGluingSystem problem
  (Alocal ++ Agluing, blocal ++ List.replicate Agluing.length 0)

/-- `SheafRouter::SolveLeastSquares`: after computing the (unused) Gram
matrix, the returned vector is the scaled pseudo-inverse approximation
`w[i] = A^T b [i] / max(1, n)` — not a least-squares solve. -/
def solveLeastSquares (A : List (List ℚ)) (b : List ℚ) :
    Except StatusErr (List ℚ) :=
  if A.isEmpty || b.isEmpty then .error .invalidArgument
  else
    let m := A.length
    let n := (A.headD []).length
    let AHb := (List.range n).map (fun i =>
      (List.range m).foldl (fun acc k =>
        if i < (A.getD k []).length ∧ k < b.length then
          acc + (A.getD k []).getD i 0 * b.getD k 0
        else acc) 0)
    let scale : ℚ := 1 / max 1 (n : ℚ)
    .ok (AHb.map (fun x => scale * x))

/-- The residual loop of `SheafRouter::LearnRouting`:
`Σ_i (Σ_{j < min(|w|, |A[i]|)} A[i][j]·w[j] - b[i])²` (missing `b` entries
read as `0`). -/
def lsResidual (A : List (List ℚ)) (b : List ℚ) (w : List ℚ) : ℚ :=
  (List.range A.length).foldl (fun acc i =>
    let row := A.getD i []
    let predicted := (List.range (min w.length row.length)).foldl
      (fun s j => s + row.getD j 0 * w.getD j 0) 0
    let error := predicted - (if i < b.length then b.getD i 0 else 0)
    acc + error ^ 2) 0

/-- The uniform default `RoutingWeights` that `LearnRouting` hands to every
patch: 8 positions, `kNumCharacters` characters, every entry
`1 / kNumCharacters`. -/
def defaultPatchWeights : RoutingWeights :=
  ⟨List.replicate 8 (List.replicate kNumCharacters (1 / (kNumCharacters : ℚ)))⟩

/-- `SheafRouter::LearnRouting` (returns the updated router state and the
`StatusOr<RoutingResult>`).  `success = residual < 1e-6`, with the literal
`1e-6` embedded as the rational `1/1000000`. -/
def SheafRouter.learnRouting (router : SheafRouter) :
    SheafRouter × Except StatusErr RoutingResult :=
  let (Asheaf, bsheaf) := assembleSheafSystem router.problem
  match solveLeastSquares Asheaf bsheaf with
  | .error e => (router, .error e)
  | .ok w =>
    let residual := lsResidual Asheaf bsheaf w
    let result : RoutingResult :=
      { patchWeights := router.problem.patches.map (fun _ => defaultPatchWeights)
        obstruction := residual
        success := decide (residual < 1 / 1000000) }
    ({ router with lastResult := result }, .ok result)

/-- Route-level errors: `FailedPrecondition` before learning, `Internal`
identifying the offending patch pair on a gluing violation. -/
inductive RouteError where
  | failedPrecondition
  | internalGluing (patch1Id patch2Id : String)
deriving DecidableEq

/-- `SheafRouter::Route`. -/
def SheafRouter.route (router : SheafRouter)
    (messagePoly sourceId destId : Polynomial) :
    Except RouteError Polynomial :=
  if router.lastResult.patchWeights.isEmpty then .error .failedPrecondition
  else
    let routed := router.problem.patches.foldl
      (fun r patch => patch.applyLocalRouting r)
      (encodeRoute sourceId destId messagePoly)
    match router.problem.gluings.find? (fun g => ! g.verify routed (1 / 1000000)) with
    | some g => .error (.internalGluing g.patch1Id g.patch2Id)
    | none => .ok routed

/-- `SheafRouter::VerifyConsistency`: returns the stored obstruction. -/
def SheafRouter.verifyConsistency (_router : SheafRouter)
    (result : RoutingResult) (_tolerance : ℚ) : ℚ :=
  result.obstruction

/-! ## Concrete instances used by the claim theorems -/

/-- The all-ones coefficient vector (64 ones). -/
def onesPoly : Polynomial := Polynomial.ofList (List.replicate kDegree 1)

/-- A one-patch routing problem with no gluings and a single training
example: message = all-ones polynomial, expected output with first
coefficient `1`. -/
def learnProblem : RoutingProblem :=
  ⟨[⟨"p0", defaultPatchWeights⟩], [],
    [⟨Polynomial.zeroPoly, Polynomial.zeroPoly, onesPoly, Polynomial.ofList [1]⟩]⟩

/-- The router returned by `Create(learnProblem)`. -/
def learnRouter : SheafRouter := ⟨learnProblem, emptyResult⟩

/-- The single design row assembled from `learnProblem`: the flattened
character projections of the all-ones message (character 0 projects to all
ones, the others to zero). -/
def rowOnes : List ℚ := List.replicate 64 1 ++ List.replicate 448 0

/-- The vector `SolveLeastSquares` actually returns on that system. -/
def wApprox : List ℚ := List.replicate 64 (1 / 512) ++ List.replicate 448 0

/-- An exact least-squares solution of the same system (residual zero). -/
def wExact : List ℚ := List.replicate 64 (1 / 64) ++ List.replicate 448 0

-- List helpers for evaluating the residual loops.

theorem getD_replicate_lt {α : Type} (c dflt : α) :
    ∀ (n i : ℕ), i < n → (List.replicate n c).getD i dflt = c := by
  intro n
  induction n with
  | zero => intro i h; omega
  | succ m ih =>
      intro i h
      cases i with
      | zero => rfl
      | succ k => exact ih k (by omega)

theorem foldl_add_eq_sum (g : ℕ → ℚ) :
    ∀ (l : List ℕ) (a : ℚ),
      l.foldl (fun s j => s + g j) a = a + (l.map g).sum := by
  intro l
  induction l with
  | nil => intro a; simp
  | cons x xs ih =>
      intro a
      simp only [List.foldl_cons, List.map_cons, List.sum_cons, ih, add_assoc]

theorem sum_range_inner_replicate (c d e : ℚ) (a b : ℕ) :
    ((List.range (a + b)).map (fun j =>
      (List.replicate a c ++ List.replicate b 0).getD j 0 *
        (List.replicate a d ++ List.replicate b e).getD j 0)).sum
      = (a : ℚ) * (c * d) := by
  rw [List.range_add, List.map_append, List.sum_append]
  have h1 : (List.range a).map (fun j =>
      (List.replicate a c ++ List.replicate b 0).getD j 0 *
        (List.replicate a d ++ List.replicate b e).getD j 0)
      = List.replicate a (c * d) := by
    apply List.eq_replicate.mpr
    refine ⟨by simp, ?_⟩
    intro x hx
    rcases List.mem_map.mp hx with ⟨j, hj, rfl⟩
    have hja : j < a := List.mem_range.mp hj
    rw [List.getD_append _ _ _ _ (by simpa using hja),
      List.getD_append _ _ _ _ (by simpa using hja),
      getD_replicate_lt _ _ _ _ hja, getD_replicate_lt _ _ _ _ hja]
  have h2 : ((List.range b).map (a + ·)).map (fun j =>
      (List.replicate a c ++ List.replicate b 0).getD j 0 *
        (List.replicate a d ++ List.replicate b e).getD j 0)
      = List.replicate b 0 := by
    apply List.eq_replicate.mpr
    refine ⟨by simp, ?_⟩
    intro x hx
    rcases List.mem_map.mp hx with ⟨j, hj, rfl⟩
    rcases List.mem_map.mp hj with ⟨i, hi, rfl⟩
    have hib : i < b := List.mem_range.mp hi
    rw [List.getD_append_right _ _ _ _ (by simp),
      getD_replicate_lt _ _ _ _ (by simpa using hib)]
    simp
  rw [h1, h2, List.sum_replicate, List.sum_replicate, nsmul_eq_mul, smul_zero,
    add_zero]

/-- The residual loop on the one-row `learnProblem` system, for any weight
vector of the shape `replicate 64 d ++ replicate 448 0`:
`(64·d - 1)²`. -/
theorem lsResidual_rowOnes (d : ℚ) :
    lsResidual [rowOnes] [1] (List.replicate 64 d ++ List.replicate 448 0)
      = ((64 : ℚ) * d - 1) ^ 2 := by
  unfold lsResidual
  have hmin : min (List.replicate 64 d ++ List.replicate 448 0).length
      (([rowOnes] : List (List ℚ)).getD 0 []).length = 64 + 448 := by
    show min _ rowOnes.length = 64 + 448
    simp only [rowOnes, List.length_append, List.length_replicate, min_self]
  rw [show ([rowOnes] : List (List ℚ)).length = 1 from rfl]
  rw [show List.range 1 = [0] from rfl]
  rw [List.foldl_cons, List.foldl_nil]
  show (0 : ℚ) + _ = _
  rw [hmin]
  rw [foldl_add_eq_sum (fun j => (([rowOnes] : List (List ℚ)).getD 0 []).getD j 0 *
    (List.replicate 64 d ++ List.replicate 448 (0 : ℚ)).getD j (0 : ℚ))]
  rw [show (([rowOnes] : List (List ℚ)).getD 0 [])
      = List.replicate 64 (1 : ℚ) ++ List.replicate 448 0 from rfl]
  rw [sum_range_inner_replicate]
  norm_num

set_option maxRecDepth 8000 in
/-- The global system assembled from `learnProblem`: one row (the flattened
projections of the all-ones message), target `1`. -/
theorem assembleSheafSystem_learnProblem :
    assembleSheafSystem learnProblem = ([rowOnes], [1]) := by decide

set_option maxRecDepth 8000 in
/-- What the solver returns on that system: `w[i] = 1/512` on the 64-entry
support of the row, `0` elsewhere. -/
theorem solveLeastSquares_learnProblem :
    solveLeastSquares [rowOnes] [1] = .ok wApprox := by decide

/-! ## Behaviour of `LearnRouting` on every accepted problem -/

/-- The `RoutingResult` that `LearnRouting` packages for a problem once the
solver has returned `w`. -/
def mkLearnResult (problem : RoutingProblem) (w : List ℚ) : RoutingResult :=
  { patchWeights := problem.patches.map fun _ => defaultPatchWeights
    obstruction := lsResidual (assembleSheafSystem problem).1
      (assembleSheafSystem problem).2 w
    success := decide (lsResidual (assembleSheafSystem problem).1
      (assembleSheafSystem problem).2 w < 1 / 1000000) }

theorem create_ok_elim {problem : RoutingProblem} {router : SheafRouter}
    (hc : SheafRouter.create problem = .ok router) :
    router = ⟨problem, emptyResult⟩ ∧ problem.patches ≠ [] := by
  unfold SheafRouter.create at hc
  by_cases h : problem.patches.isEmpty
  · rw [if_pos h] at hc; exact absurd hc (by simp)
  · rw [if_neg h] at hc
    refine ⟨by injection hc with h'; exact h'.symm, ?_⟩
    intro hnil
    exact h (by simp [hnil])

theorem assembleSheafSystem_ne_nil (problem : RoutingProblem) :
    (assembleSheafSystem problem).1 ≠ [] ∧
      (assembleSheafSystem problem).2 ≠ [] := by
  unfold assembleSheafSystem assembleLocalSystem
  cases problem.examples with
  | nil => simp
  | cons e es => simp

theorem solveLeastSquares_ok {A : List (List ℚ)} {b : List ℚ}
    (hA : A ≠ []) (hb : b ≠ []) :
    ∃ w, solveLeastSquares A b = .ok w := by
  unfold solveLeastSquares
  rw [if_neg (by simp [List.isEmpty_iff, hA, hb])]
  exact ⟨_, rfl⟩

/-- What `LearnRouting` does on any router: it always succeeds, reports the
residual of the solver's approximate vector as the obstruction, compares it
against `1e-6` for `success`, hands every patch the uniform default weights,
and caches the result. -/
theorem learnRouting_spec (router : SheafRouter) :
    ∃ w, solveLeastSquares (assembleSheafSystem router.problem).1
        (assembleSheafSystem router.problem).2 = .ok w ∧
      router.learnRouting =
        ({ router with lastResult := mkLearnResult router.problem w },
          .ok (mkLearnResult router.problem w)) := by
  obtain ⟨hA, hb⟩ := assembleSheafSystem_ne_nil router.problem
  obtain ⟨w, hw⟩ := solveLeastSquares_ok hA hb
  refine ⟨w, hw, ?_⟩
  unfold SheafRouter.learnRouting
  rcases hs : assembleSheafSystem router.problem with ⟨A, b⟩
  rw [hs] at hw
  simp only [hw, mkLearnResult, hs]

/-- A one-patch problem with no gluings and no training examples (the
assembled system is then the dummy `1×1` identity). -/
def tinyProblem : RoutingProblem := ⟨[⟨"q0", defaultPatchWeights⟩], [], []⟩

/-- The router returned by `Create(tinyProblem)`. -/
def tinyRouter : SheafRouter := ⟨tinyProblem, emptyResult⟩

/-- C1 (counterexample): on the concrete one-example problem `learnProblem`
(accepted by `Create`), `LearnRouting` reports obstruction `49/64` with
`success = false`, although the explicit weight vector `wExact` attains
residual `0` on the very same assembled system — so the reported obstruction
is not `‖A w* - b‖²` for any least-squares minimiser `w*`, and `success` is
not decided by the minimal residual. -/
theorem C1_counterexample :
    SheafRouter.create learnProblem = .ok learnRouter ∧
    learnRouter.learnRouting.2 = .ok ⟨[defaultPatchWeights], 49 / 64, false⟩ ∧
    lsResidual (assembleSheafSystem learnProblem).1
      (assembleSheafSystem learnProblem).2 wExact = 0 ∧
    ¬ ((49 : ℚ) / 64 ≤ 0) := by
  refine ⟨rfl, ?_, ?_, by norm_num⟩
  · obtain ⟨w, hw, hlearn⟩ := learnRouting_spec learnRouter
    have hsys : assembleSheafSystem learnRouter.problem = ([rowOnes], [1]) :=
      assembleSheafSystem_learnProblem
    rw [hsys] at hw
    rw [solveLeastSquares_learnProblem] at hw
    injection hw with hw'
    subst hw'
    rw [hlearn]
    show Except.ok (mkLearnResult learnRouter.problem wApprox) = _
    unfold mkLearnResult
    rw [hsys]
    have hres : lsResidual [rowOnes] [1] wApprox = 49 / 64 := by
      have h := lsResidual_rowOnes (1 / 512)
      rw [show (List.replicate 64 ((1 : ℚ) / 512) ++ List.replicate 448 (0 : ℚ))
        = wApprox from rfl] at h
      rw [h]; norm_num
    rw [hres]
    rfl
  · rw [assembleSheafSystem_learnProblem]
    have h := lsResidual_rowOnes (1 / 64)
    rw [show (List.replicate 64 ((1 : ℚ) / 64) ++ List.replicate 448 (0 : ℚ))
      = wExact from rfl] at h
    rw [h]; norm_num

/-- C1 (amended): for every routing problem accepted by `Create`,
`LearnRouting` always succeeds; it computes the approximate vector
`w = Aᵀb / max(1, n)` returned by `SolveLeastSquares` (a scaled pseudo-inverse
heuristic, not a least-squares minimiser), reports the obstruction as the
residual `‖A w - b‖²` of that approximate vector, sets `success` iff that
residual is strictly below `1e-6`, and hands every patch the uniform default
weights. -/
theorem C1_amended (problem : RoutingProblem) (router : SheafRouter)
    (hc : SheafRouter.create problem = .ok router) :
    ∃ w, solveLeastSquares (assembleSheafSystem problem).1
        (assembleSheafSystem problem).2 = .ok w ∧
      router.learnRouting.2 = .ok
        { patchWeights := problem.patches.map fun _ => defaultPatchWeights
          obstruction := lsResidual (assembleSheafSystem problem).1
            (assembleSheafSystem problem).2 w
          success := decide (lsResidual (assembleSheafSystem problem).1
            (assembleSheafSystem problem).2 w < 1 / 1000000) } := by
  obtain ⟨rfl, -⟩ := create_ok_elim hc
  obtain ⟨w, hw, hlearn⟩ := learnRouting_spec ⟨problem, emptyResult⟩
  refine ⟨w, hw, ?_⟩
  rw [hlearn]
  rfl

/-- C1 witness: the amended statement applied to the concrete example-free
one-patch problem `tinyProblem`. -/
theorem C1_amended_witness :
    ∃ w, solveLeastSquares (assembleSheafSystem tinyProblem).1
        (assembleSheafSystem tinyProblem).2 = .ok w ∧
      tinyRouter.learnRouting.2 = .ok
        { patchWeights := tinyProblem.patches.map fun _ => defaultPatchWeights
          obstruction := lsResidual (assembleSheafSystem tinyProblem).1
            (assembleSheafSystem tinyProblem).2 w
          success := decide (lsResidual (assembleSheafSystem tinyProblem).1
            (assembleSheafSystem tinyProblem).2 w < 1 / 1000000) } :=
  C1_amended tinyProblem tinyRouter rfl

/-- C10: for every routing problem accepted by `Create`, `LearnRouting`
gives each patch the same `RoutingWeights`, independent of the training
examples and gluing constraints: the per-patch list is
`patches.length` copies of the default matrix, which has 8 position rows of
`kNumCharacters` entries all equal to `1 / kNumCharacters`.  (The
least-squares solution vector is never unpacked into these weights: the
result depends only on the number of patches.) -/
theorem C10_uniform_patch_weights (problem : RoutingProblem)
    (router : SheafRouter) (hc : SheafRouter.create problem = .ok router) :
    ∃ res, router.learnRouting.2 = .ok res ∧
      res.patchWeights = List.replicate problem.patches.length defaultPatchWeights ∧
      defaultPatchWeights.weights =
        List.replicate 8 (List.replicate kNumCharacters (1 / (kNumCharacters : ℚ))) := by
  obtain ⟨rfl, -⟩ := create_ok_elim hc
  obtain ⟨w, hw, hlearn⟩ := learnRouting_spec ⟨problem, emptyResult⟩
  refine ⟨_, by rw [hlearn], ?_, rfl⟩
  show (mkLearnResult problem w).patchWeights = _
  unfold mkLearnResult
  simp [List.map_const']

/-- C10 witness: applied to the concrete problem `learnProblem`. -/
theorem C10_witness :
    ∃ res, learnRouter.learnRouting.2 = .ok res ∧
      res.patchWeights =
        List.replicate learnProblem.patches.length defaultPatchWeights ∧
      defaultPatchWeights.weights =
        List.replicate 8 (List.replicate kNumCharacters (1 / (kNumCharacters : ℚ))) :=
  C10_uniform_patch_weights learnProblem learnRouter rfl

/-- Spec-side description of `Route` after a successful learn (following the
claim text): encode the route, apply each patch's local routing in
`problem.patches` order, then check every gluing constraint against the
final routed polynomial with tolerance `1e-6`; fail with an `Internal` error
naming the two patch ids of the first violated constraint, otherwise return
the final routed polynomial. -/
def routeSpec (problem : RoutingProblem)
    (messagePoly sourceId destId : Polynomial) : Except RouteError Polynomial :=
  let routed := problem.patches.foldl
    (fun r patch => patch.applyLocalRouting r)
    (encodeRoute sourceId destId messagePoly)
  match problem.gluings.find? (fun g => ! g.verify routed (1 / 1000000)) with
  | some g => .error (.internalGluing g.patch1Id g.patch2Id)
  | none => .ok routed

/-- C2: for every problem accepted by `Create`, the fresh router's `Route`
fails with `FailedPrecondition` (no `LearnRouting` has happened), and after
`LearnRouting` (which always succeeds and installs non-empty patch weights)
`Route` behaves exactly as `routeSpec`: it encodes with `EncodeRoute`,
applies each patch's `ApplyLocalRouting` in `problem.patches` order,
verifies every gluing constraint against the final routed polynomial with
tolerance `1e-6`, fails with an `Internal` error identifying the offending
patch pair on the first violation, and otherwise returns the final routed
polynomial. -/
theorem C2_route_precondition_and_pipeline (problem : RoutingProblem)
    (router : SheafRouter) (hc : SheafRouter.create problem = .ok router)
    (m s d : Polynomial) :
    router.route m s d = .error .failedPrecondition ∧
    (∀ router' res, router.learnRouting = (router', res) →
      router'.route m s d = routeSpec problem m s d) := by
  obtain ⟨rfl, hp⟩ := create_ok_elim hc
  constructor
  · rfl
  · intro router' res heq
    obtain ⟨w, hw, hlearn⟩ := learnRouting_spec ⟨problem, emptyResult⟩
    rw [hlearn] at heq
    injection heq with h1 h2
    subst h1
    unfold SheafRouter.route
    rw [if_neg (by simp [mkLearnResult, List.isEmpty_iff, hp])]
    rfl

/-- C2 witness: the theorem applied to the concrete problem `learnProblem`
and all-zero message/source/destination. -/
theorem C2_witness :
    learnRouter.route Polynomial.zeroPoly Polynomial.zeroPoly Polynomial.zeroPoly
        = .error .failedPrecondition ∧
    (∀ router' res, learnRouter.learnRouting = (router', res) →
      router'.route Polynomial.zeroPoly Polynomial.zeroPoly Polynomial.zeroPoly
        = routeSpec learnProblem Polynomial.zeroPoly Polynomial.zeroPoly
            Polynomial.zeroPoly) :=
  C2_route_precondition_and_pipeline learnProblem learnRouter rfl
    Polynomial.zeroPoly Polynomial.zeroPoly Polynomial.zeroPoly

/-! ## Routing codec algebra (encode / extract) -/

theorem canonical_getD_bounds {p : Polynomial} (h : IsCanonical p) {i : ℕ}
    (hi : i < kDegree) :
    0 ≤ p.coefficients.getD i 0 ∧ p.coefficients.getD i 0 < kModulus := by
  have hlen : i < p.coefficients.length := by rw [h.1]; exact hi
  rw [List.getD_eq_getElem _ _ hlen]
  exact h.2 _ (List.getElem_mem hlen)

theorem eq_rangeMap_getD {l : List ℤ} {n : ℕ} (h : l.length = n) :
    (List.range n).map (fun i => l.getD i 0) = l := by
  apply List.ext_getElem
  · simp [h]
  · intro i h1 h2
    simp only [List.getElem_map, List.getElem_range]
    exact List.getD_eq_getElem l 0 h2

theorem reduceMod_sub_reduceMod (x y : ℤ) :
    reduceMod (reduceMod x - y) = reduceMod (x - y) := by
  unfold reduceMod Mod
  conv_lhs => rw [Int.sub_emod]
  conv_rhs => rw [Int.sub_emod]
  rw [Int.emod_emod_of_dvd _ dvd_rfl]

theorem reduceMod_eq_self_imp_sub_dvd {x m : ℤ}
    (hm0 : 0 ≤ m) (hm1 : m < kModulus) (h : reduceMod x = m) :
    kModulus ∣ (x - m) := by
  apply Int.dvd_of_emod_eq_zero
  unfold reduceMod Mod at h
  rw [Int.sub_emod, h, Int.emod_eq_of_lt hm0 hm1, sub_self,
    Int.zero_emod]

theorem getD_range_map (f : ℕ → ℤ) {n i : ℕ} (h : i < n) :
    ((List.range n).map f).getD i 0 = f i := by
  rw [List.getD_eq_getElem _ _ (by simpa using h), List.getElem_map,
    List.getElem_range]

/-- The coefficientwise description of `ExtractMessage ∘ EncodeRoute`. -/
theorem extract_encode_coeffs (m s d y : Polynomial) :
    extractMessage (encodeRoute s d m) y =
      .ok ⟨(List.range kDegree).map fun i =>
        reduceMod (reduceMod (m.coefficients.getD i 0 + d.coefficients.getD i 0)
          - y.coefficients.getD i 0)⟩ := by
  unfold extractMessage encodeRoute Polynomial.add Polynomial.sub
  rw [show (Polynomial.ofList ((List.range kDegree).map fun i =>
      reduceMod (m.coefficients.getD i 0 + d.coefficients.getD i 0))).coefficients
    = (List.range kDegree).map fun i =>
      reduceMod (m.coefficients.getD i 0 + d.coefficients.getD i 0)
    from ofList_rangeMap_reduceMod _]
  have hmap : ((List.range kDegree).map fun i =>
      reduceMod (((List.range kDegree).map fun i =>
          reduceMod (m.coefficients.getD i 0 + d.coefficients.getD i 0)).getD i 0
        - y.coefficients.getD i 0))
      = (List.range kDegree).map fun i =>
        reduceMod (reduceMod (m.coefficients.getD i 0 + d.coefficients.getD i 0)
          - y.coefficients.getD i 0) := by
    apply List.map_congr_left
    intro i hi
    rw [getD_range_map _ (List.mem_range.mp hi)]
  rw [hmap]
  show Except.ok (Polynomial.ofList _) = _
  unfold Polynomial.ofList
  rw [normCoeffs_rangeMap _ (fun i => ⟨reduceMod_nonneg _, reduceMod_lt _⟩)]

set_option maxRecDepth 8000 in
/-- C3: for canonical polynomials, extracting with `myId` after
`EncodeRoute(source, destination, message)` returns the message exactly when
`myId = destination`; and the concrete "Hello" instance decodes back to
`[72,101,108,108,111]` padded with zeros when extracted with the
destination. -/
theorem C3_extract_encode_iff (m s d y : Polynomial) (hm : IsCanonical m)
    (hd : IsCanonical d) (hy : IsCanonical y) :
    (extractMessage (encodeRoute s d m) y = .ok m ↔ y = d) ∧
    (extractMessage
        (encodeRoute (Polynomial.ofList [1, 2, 3]) (Polynomial.ofList [4, 5, 6])
          (Polynomial.ofList [72, 101, 108, 108, 111]))
        (Polynomial.ofList [4, 5, 6])).map Polynomial.decode
      = .ok ([72, 101, 108, 108, 111] ++ List.replicate 59 0) := by
  constructor
  · rw [extract_encode_coeffs m s d y]
    constructor
    · intro h
      injection h with h
      have hco : ∀ i, i < kDegree →
          reduceMod (m.coefficients.getD i 0 + d.coefficients.getD i 0
            - y.coefficients.getD i 0) = m.coefficients.getD i 0 := by
        intro i hilt
        have := congrArg (fun p => p.coefficients.getD i 0) h
        simp only at this
        rw [List.getD_eq_getElem _ _ (by simpa using hilt), List.getElem_map,
          List.getElem_range, reduceMod_sub_reduceMod] at this
        exact this
      -- coefficientwise: kModulus divides d_i - y_i, and both are canonical
      have hdy : ∀ i, i < kDegree →
          d.coefficients.getD i 0 = y.coefficients.getD i 0 := by
        intro i hilt
        obtain ⟨hm0, hm1⟩ := canonical_getD_bounds hm hilt
        obtain ⟨hd0, hd1⟩ := canonical_getD_bounds hd hilt
        obtain ⟨hy0, hy1⟩ := canonical_getD_bounds hy hilt
        have hdvd := reduceMod_eq_self_imp_sub_dvd hm0 hm1 (hco i hilt)
        have heq : m.coefficients.getD i 0 + d.coefficients.getD i 0
            - y.coefficients.getD i 0 - m.coefficients.getD i 0
            = d.coefficients.getD i 0 - y.coefficients.getD i 0 := by ring
        rw [heq] at hdvd
        obtain ⟨k, hk⟩ := hdvd
        have hk0 : k = 0 := by
          rcases lt_trichotomy k 0 with hneg | rfl | hpos
          · nlinarith [hk]
          · rfl
          · nlinarith [hk]
        rw [hk0, mul_zero] at hk
        omega
      cases y with
      | mk ly =>
        cases d with
        | mk ld =>
          simp only [Polynomial.mk.injEq]
          have h1 : ld.length = kDegree := hd.1
          have h2 : ly.length = kDegree := hy.1
          apply List.ext_getElem (by rw [h1, h2])
          intro i hi1 hi2
          have hilt : i < kDegree := by rw [← h2]; exact hi1
          have := hdy i hilt
          simp only [Polynomial.coefficients] at this
          rw [List.getD_eq_getElem _ _ hi2, List.getD_eq_getElem _ _ hi1] at this
          exact this.symm
    · rintro rfl
      have : ((List.range kDegree).map fun i =>
          reduceMod (reduceMod (m.coefficients.getD i 0 + y.coefficients.getD i 0)
            - y.coefficients.getD i 0)) = m.coefficients := by
        have hstep : ∀ i ∈ List.range kDegree,
            reduceMod (reduceMod (m.coefficients.getD i 0 + y.coefficients.getD i 0)
              - y.coefficients.getD i 0) = m.coefficients.getD i 0 := by
          intro i hi
          have hilt : i < kDegree := List.mem_range.mp hi
          obtain ⟨hm0, hm1⟩ := canonical_getD_bounds hm hilt
          rw [reduceMod_sub_reduceMod, add_sub_cancel_right]
          exact reduceMod_eq_of_canonical hm0 hm1
        rw [List.map_congr_left hstep]
        exact eq_rangeMap_getD hm.1
      rw [this]
  · decide

/-- C3 witness: the iff applied to the concrete "Hello" polynomials, whose
canonicity is discharged by evaluation. -/
theorem C3_witness :
    (extractMessage
        (encodeRoute (Polynomial.ofList [1, 2, 3]) (Polynomial.ofList [4, 5, 6])
          (Polynomial.ofList [72, 101, 108, 108, 111]))
        (Polynomial.ofList [4, 5, 6])
      = .ok (Polynomial.ofList [72, 101, 108, 108, 111])
      ↔ Polynomial.ofList [4, 5, 6] = Polynomial.ofList [4, 5, 6]) ∧
    (extractMessage
        (encodeRoute (Polynomial.ofList [1, 2, 3]) (Polynomial.ofList [4, 5, 6])
          (Polynomial.ofList [72, 101, 108, 108, 111]))
        (Polynomial.ofList [4, 5, 6])).map Polynomial.decode
      = .ok ([72, 101, 108, 108, 111] ++ List.replicate 59 0) :=
  C3_extract_encode_iff (Polynomial.ofList [72, 101, 108, 108, 111])
    (Polynomial.ofList [1, 2, 3]) (Polynomial.ofList [4, 5, 6])
    (Polynomial.ofList [4, 5, 6]) (by decide) (by decide) (by decide)

/-! ## Projection structure -/

theorem getD_range_map' {α : Type} (f : ℕ → α) (d : α) {n i : ℕ} (h : i < n) :
    ((List.range n).map f).getD i d = f i := by
  rw [List.getD_eq_getElem _ _ (by simpa using h), List.getElem_map,
    List.getElem_range]

theorem filterMap_eq_map_of_forall {α β : Type} (f : α → Option β) (g : α → β) :
    ∀ l : List α, (∀ x ∈ l, f x = some (g x)) → l.filterMap f = l.map g := by
  intro l
  induction l with
  | nil => intro _; rfl
  | cons x xs ih =>
      intro h
      rw [List.filterMap_cons, h x (by simp), List.map_cons,
        ih (fun y hy => h y (by simp [hy]))]

theorem foldl_congr_mem {α β : Type} {l : List α} {f g : β → α → β} {a : β}
    (h : ∀ b x, x ∈ l → f b x = g b x) : l.foldl f a = l.foldl g a := by
  induction l generalizing a with
  | nil => rfl
  | cons x xs ih =>
      rw [List.foldl_cons, List.foldl_cons, h a x (by simp)]
      exact ih (fun b y hy => h b y (by simp [hy]))

theorem projectToCharacter_ok (p : Polynomial) (j : ℕ) (h : j < kNumCharacters) :
    p.projectToCharacter (j : ℤ) = .ok (p.projectRaw j) := by
  unfold Polynomial.projectToCharacter
  rw [if_neg (by push_neg; constructor <;> [positivity; exact_mod_cast h])]
  rw [Int.toNat_natCast]

theorem projectToAllCharacters_eq (p : Polynomial) :
    p.projectToAllCharacters
      = (List.range kNumCharacters).map (fun j => p.projectRaw j) := by
  unfold Polynomial.projectToAllCharacters
  apply filterMap_eq_map_of_forall
  intro j hj
  rw [projectToCharacter_ok p j (List.mem_range.mp hj)]
  rfl

theorem projectRaw_length (p : Polynomial) (j : ℕ) :
    (p.projectRaw j).coefficients.length = kDegree := by
  have h : ∀ l : List ℤ, (Polynomial.ofList l).coefficients.length = kDegree :=
    fun l => normCoeffs_length l
  exact h _

/-- C6: `ProjectToAllCharacters` returns exactly `kNumCharacters` projection
polynomials, in character order `0, 1, …, kNumCharacters - 1` (each the `ok`
payload of `ProjectToCharacter`, so none is silently dropped), and every one
has exactly `kDegree` coefficients. -/
theorem C6_all_projections (p : Polynomial) :
    p.projectToAllCharacters
        = (List.range kNumCharacters).map (fun j => p.projectRaw j) ∧
    p.projectToAllCharacters.length = kNumCharacters ∧
    (∀ j, j < kNumCharacters →
      p.projectToCharacter (j : ℤ) = .ok (p.projectRaw j)) ∧
    (∀ q ∈ p.projectToAllCharacters, q.coefficients.length = kDegree) := by
  refine ⟨projectToAllCharacters_eq p, ?_, fun j hj => projectToCharacter_ok p j hj, ?_⟩
  · rw [projectToAllCharacters_eq p]; simp
  · intro q hq
    rw [projectToAllCharacters_eq p] at hq
    rcases List.mem_map.mp hq with ⟨j, _, rfl⟩
    exact projectRaw_length p j

/-- C6 witness: the projection count at the concrete zero polynomial. -/
theorem C6_witness :
    Polynomial.zeroPoly.projectToAllCharacters.length = kNumCharacters :=
  (C6_all_projections Polynomial.zeroPoly).2.1

theorem ofList_coefficients_of_length {l : List ℤ} (h : l.length = kDegree) :
    (Polynomial.ofList l).coefficients = l.map reduceMod := by
  unfold Polynomial.ofList normCoeffs reduceModXn
  rw [h, Nat.sub_self, List.replicate_zero, List.append_nil,
    if_neg (by simp [h])]

/-- The claim's weighted character sum
`Σ_j weights[p][j] · P[j].coefficient[p]` with
`P = input.ProjectToAllCharacters()`. -/
def wreathSum (input : Polynomial) (weights : RoutingWeights) (p : ℕ) : ℚ :=
  (List.range weights.numCharacters).foldl (fun acc j =>
    acc + ((weights.weights.getD p []).getD j 0) *
      (((input.projectToAllCharacters.getD j Polynomial.zeroPoly).decode.getD p 0 : ℤ) : ℚ)) 0

/-- A 1-position weight matrix whose single routing weight is `65537`. -/
def cexWeights : RoutingWeights := ⟨[[65537, 0, 0, 0, 0, 0, 0, 0]]⟩

set_option maxRecDepth 8000 in
/-- C4 (counterexample): with the all-ones input and the weight matrix
`cexWeights` (dimensions match, one position), the weighted character sum at
position 0 rounds to `65537`, but the returned coefficient is
`65537 mod kModulus = 0`, not `65537`: the output coefficient is the mod-p
reduction of the rounded sum, not the rounded sum itself. -/
theorem C4_counterexample :
    cexWeights.numCharacters = kNumCharacters ∧
    rroundQ (wreathSum onesPoly cexWeights 0) = 65537 ∧
    (applyRoutingWeights onesPoly cexWeights).coefficients.getD 0 0 = 0 ∧
    ((0 : ℤ) ≠ 65537) := by decide

/-- C4 (amended): if the number of character projections differs from
`weights.numCharacters()`, `ApplyRoutingWeights` returns the input
unchanged; otherwise the coefficient at each position
`p < min(numPositions, kDegree)` is `round(Σ_j weights[p][j]·P[j][p])`
reduced into `[0, kModulus)` (the constructor reduces the rounded value mod
`kModulus`), and all other coefficients are zero. -/
theorem C4_amended (input : Polynomial) (weights : RoutingWeights) :
    (weights.numCharacters ≠ kNumCharacters →
      applyRoutingWeights input weights = input) ∧
    (weights.numCharacters = kNumCharacters →
      (applyRoutingWeights input weights).coefficients
        = (List.range kDegree).map fun p =>
            if p < weights.numPositions
            then reduceMod (rroundQ (wreathSum input weights p)) else 0) := by
  have hproj : input.projectToAllCharacters.length = kNumCharacters := by
    rw [projectToAllCharacters_eq input]; simp
  constructor
  · intro hne
    unfold applyRoutingWeights
    rw [if_pos (by rw [hproj]; exact fun hc => hne hc.symm)]
  · intro heq
    unfold applyRoutingWeights
    rw [if_neg (by rw [hproj, heq]; exact fun hc => hc rfl)]
    rw [ofList_coefficients_of_length (by simp), List.map_map]
    apply List.map_congr_left
    intro p hp
    have hplt : p < kDegree := List.mem_range.mp hp
    show reduceMod _ = _
    rw [apply_ite reduceMod]
    have h0 : reduceMod 0 = 0 := rfl
    rw [h0]
    have hfold : (List.range weights.numCharacters).foldl (fun acc j =>
        let projCoeffs := (input.projectToAllCharacters.getD j Polynomial.zeroPoly).decode
        if p < projCoeffs.length then
          acc + ((weights.weights.getD p []).getD j 0) * ((projCoeffs.getD p 0 : ℤ) : ℚ)
        else acc) 0 = wreathSum input weights p := by
      unfold wreathSum
      apply foldl_congr_mem
      intro b j hj
      have hjlt : j < kNumCharacters := by rw [← heq]; exact List.mem_range.mp hj
      have hgetD : input.projectToAllCharacters.getD j Polynomial.zeroPoly
          = input.projectRaw j := by
        rw [projectToAllCharacters_eq input]
        exact getD_range_map' _ _ hjlt
      rw [hgetD]
      rw [show (let projCoeffs := (input.projectRaw j).decode
            if p < projCoeffs.length then
              b + ((weights.weights.getD p []).getD j 0) * ((projCoeffs.getD p 0 : ℤ) : ℚ)
            else b)
          = (if p < (input.projectRaw j).decode.length then
              b + ((weights.weights.getD p []).getD j 0) *
                (((input.projectRaw j).decode.getD p 0 : ℤ) : ℚ)
            else b) from rfl]
      rw [if_pos (by
        rw [show (input.projectRaw j).decode.length = kDegree
          from projectRaw_length input j]
        exact hplt)]
    rw [hfold]

/-- C4 witness: the amended characterisation applied at the zero polynomial
with the uniform default weights. -/
theorem C4_witness :
    (applyRoutingWeights Polynomial.zeroPoly defaultPatchWeights).coefficients
      = (List.range kDegree).map fun p =>
          if p < defaultPatchWeights.numPositions
          then reduceMod (rroundQ (wreathSum Polynomial.zeroPoly defaultPatchWeights p))
          else 0 :=
  (C4_amended Polynomial.zeroPoly defaultPatchWeights).2 (by decide)

/-! ## Encode / Decode round trip -/

theorem normCoeffs_of_le {l : List ℤ} (hlen : l.length ≤ kDegree)
    (hb : ∀ c ∈ l, 0 ≤ c ∧ c < kModulus) :
    normCoeffs l = l ++ List.replicate (kDegree - l.length) 0 := by
  unfold normCoeffs reduceModXn
  have hmap : l.map reduceMod = l := by
    conv_rhs => rw [← List.map_id l]
    apply List.map_congr_left
    intro c hc
    exact reduceMod_eq_of_canonical (hb c hc).1 (hb c hc).2
  rw [hmap, if_neg (by simp; omega)]

/-- C5 (counterexample): `Encode([65537])` succeeds (the length bound
holds), but the constructor reduces the entry mod `kModulus`, so the decoded
vector is all zeros rather than `[65537]` zero-padded. -/
theorem C5_counterexample :
    Polynomial.encode [65537] = .ok (Polynomial.ofList [65537]) ∧
    (Polynomial.ofList [65537]).decode = List.replicate 64 0 ∧
    List.replicate 64 (0 : ℤ) ≠ [65537] ++ List.replicate 63 (0 : ℤ) := by
  refine ⟨rfl, by decide, by decide⟩

/-- C5 (amended): `Encode(v)` fails with `InvalidArgument` exactly when
`v.length > kDegree`; and for `v` whose entries already lie in
`[0, kModulus)`, the successful encode decodes to `v` zero-padded to length
`kDegree`.  (For out-of-range entries the decoded vector holds their mod-p
reductions instead.) -/
theorem C5_encode_decode (v : List ℤ) :
    (Polynomial.encode v = .error .invalidArgument ↔ kDegree < v.length) ∧
    (v.length ≤ kDegree → (∀ c ∈ v, 0 ≤ c ∧ c < kModulus) →
      ∃ q, Polynomial.encode v = .ok q ∧
        q.decode = v ++ List.replicate (kDegree - v.length) 0) := by
  constructor
  · unfold Polynomial.encode
    split
    · next h => exact ⟨fun _ => h, fun _ => rfl⟩
    · next h => exact ⟨fun hc => by injection hc, fun hc => absurd hc h⟩
  · intro hlen hb
    refine ⟨Polynomial.ofList v, ?_, ?_⟩
    · unfold Polynomial.encode
      rw [if_neg (by omega)]
    · show normCoeffs v = _
      exact normCoeffs_of_le hlen hb

/-- C5 witness: the amended statement applied to the two-entry list
`[72, 101]`. -/
theorem C5_witness :
    (Polynomial.encode [72, 101] = .error .invalidArgument
      ↔ kDegree < ([72, 101] : List ℤ).length) ∧
    (([72, 101] : List ℤ).length ≤ kDegree →
      (∀ c ∈ ([72, 101] : List ℤ), 0 ≤ c ∧ c < kModulus) →
      ∃ q, Polynomial.encode [72, 101] = .ok q ∧
        q.decode = [72, 101] ++ List.replicate (kDegree - ([72, 101] : List ℤ).length) 0) :=
  C5_encode_decode [72, 101]

/-! ## Gluing self-verification -/

theorem zipWith_self_sq_sum (l : List ℤ) :
    (List.zipWith (fun a b => (((a - b : ℤ) : ℚ)) ^ 2) l l).sum = 0 := by
  induction l with
  | nil => rfl
  | cons x xs ih => simp [ih]

/-- C7 (counterexample): at tolerance `0` (which the claim includes via
`tol ≥ 0`), self-verification fails, because the comparison
`sqrt(0) < tolerance` is strict. -/
theorem C7_counterexample :
    (GluingConstraint.mk "a" "b" Polynomial.zeroPoly .continuity).verify
      Polynomial.zeroPoly 0 = false := by decide

/-- C7 (amended): for every gluing constraint and every strictly positive
tolerance, verifying the stored boundary against itself returns `true` (the
L2 distance is zero); at `tol = 0` the strict comparison makes it `false`. -/
theorem C7_self_verify (g : GluingConstraint) (tol : ℚ) (h : 0 < tol) :
    g.verify g.boundaryPoly tol = true := by
  unfold GluingConstraint.verify
  rw [if_neg (by exact fun hc => hc rfl)]
  rw [show (List.zipWith (fun a b => (((a - b : ℤ) : ℚ)) ^ 2)
      g.boundaryPoly.decode g.boundaryPoly.decode).sum = 0
    from zipWith_self_sq_sum _]
  simp only [decide_eq_true_eq]
  exact ⟨h, pow_pos h 2⟩

/-- C7 witness: self-verification of a concrete boundary at tolerance 1. -/
theorem C7_witness :
    (GluingConstraint.mk "a" "b" Polynomial.zeroPoly .continuity).verify
      Polynomial.zeroPoly 1 = true :=
  C7_self_verify (GluingConstraint.mk "a" "b" Polynomial.zeroPoly .continuity) 1
    (by norm_num)

/-! ## Representation invariant -/

/-- C9: every polynomial produced by a public operation — construction from
any coefficient list, `Add`, `Subtract`, `Multiply`, `MultiplyScalar`,
`Rotate`, `Negate`, a successful `Encode`, a successful
`ProjectToCharacter`, and `ApplyRoutingWeights` (whose fallback branch
returns its canonical input) — has exactly `kDegree` coefficients, each in
`[0, kModulus)`. -/
theorem C9_operation_invariant :
    (∀ l : List ℤ, IsCanonical (Polynomial.ofList l)) ∧
    (∀ a b : Polynomial, IsCanonical (a.add b)) ∧
    (∀ a b : Polynomial, IsCanonical (a.sub b)) ∧
    (∀ a b : Polynomial, IsCanonical (a.multiply b)) ∧
    (∀ (a : Polynomial) (s : ℤ), IsCanonical (a.multiplyScalar s)) ∧
    (∀ (a : Polynomial) (n : ℤ), IsCanonical (a.rotate n)) ∧
    (∀ a : Polynomial, IsCanonical a.negate) ∧
    (∀ (v : List ℤ) (q : Polynomial), Polynomial.encode v = .ok q → IsCanonical q) ∧
    (∀ (p : Polynomial) (j : ℤ) (q : Polynomial),
      p.projectToCharacter j = .ok q → IsCanonical q) ∧
    (∀ (input : Polynomial) (weights : RoutingWeights), IsCanonical input →
      IsCanonical (applyRoutingWeights input weights)) := by
  have hof : ∀ l : List ℤ, IsCanonical (Polynomial.ofList l) := ofList_isCanonical
  refine ⟨hof, fun a b => hof _, fun a b => hof _, fun a b => hof _,
    fun a s => hof _, fun a n => hof _, fun a => hof _, ?_, ?_, ?_⟩
  · intro v q h
    unfold Polynomial.encode at h
    split at h
    · exact absurd h (by simp)
    · injection h with h'
      exact h' ▸ hof v
  · intro p j q h
    unfold Polynomial.projectToCharacter at h
    split at h
    · exact absurd h (by simp)
    · injection h with h'
      exact h' ▸ hof _
  · intro input weights hin
    unfold applyRoutingWeights
    simp only []
    split
    · exact hin
    · exact hof _

/-- C9 witness: the invariant at a concrete out-of-range construction and a
concrete `ApplyRoutingWeights` call. -/
theorem C9_witness :
    IsCanonical (Polynomial.ofList [100000, -3]) ∧
    IsCanonical (applyRoutingWeights Polynomial.zeroPoly cexWeights) := by
  obtain ⟨h1, -, -, -, -, -, -, -, -, h10⟩ := C9_operation_invariant
  exact ⟨h1 _, h10 _ _ (by decide)⟩

/-! ## Mailbox id embedding -/

theorem foldl_id_of_mem {α β : Type} {l : List α} {f : β → α → β}
    (h : ∀ acc x, x ∈ l → f acc x = acc) : ∀ a, l.foldl f a = a := by
  induction l with
  | nil => intro a; rfl
  | cons x xs ih =>
      intro a
      rw [List.foldl_cons, h a x (by simp)]
      exact ih (fun b y hy => h b y (by simp [hy])) a

theorem xor_two_pow_of_lt {lo n : ℕ} (h : lo < 2 ^ n) :
    lo ^^^ 2 ^ n = lo + 2 ^ n := by
  apply Nat.eq_of_testBit_eq
  intro j
  rw [Nat.testBit_xor]
  rcases lt_trichotomy j n with hj | heq | hj
  · rw [Nat.testBit_two_pow_of_ne (by omega : n ≠ j), Bool.xor_false]
    rw [Nat.testBit_to_div_mod, Nat.testBit_to_div_mod]
    have h2 : 2 ^ n = 2 ^ j * 2 ^ (n - j) := by rw [← pow_add]; congr 1; omega
    have hdiv : (lo + 2 ^ n) / 2 ^ j = lo / 2 ^ j + 2 ^ (n - j) := by
      rw [h2, Nat.add_mul_div_left _ _ (by positivity)]
    have hsw : lo / 2 ^ j + 2 ^ (n - j)
        = lo / 2 ^ j + 2 ^ (n - j - 1) * 2 := by
      congr 1
      rw [← pow_succ]
      congr 1
      omega
    have hstep : (lo + 2 ^ n) / 2 ^ j % 2 = lo / 2 ^ j % 2 := by
      rw [hdiv, hsw, Nat.add_mul_mod_self_right]
    rw [hstep]
  · subst heq
    rw [Nat.testBit_two_pow_self, Nat.testBit_lt_two_pow h, Bool.false_xor]
    rw [Nat.testBit_to_div_mod]
    have hdiv : (lo + 2 ^ j) / 2 ^ j = 1 := by
      rw [Nat.add_div_right _ (by positivity), Nat.div_eq_of_lt h]
    rw [hdiv]
    decide
  · rw [Nat.testBit_two_pow_of_ne (by omega : n ≠ j), Bool.xor_false]
    have hj2 : 2 ^ (n + 1) ≤ 2 ^ j := Nat.pow_le_pow_right (by norm_num) (by omega)
    have hpow : (2 : ℕ) ^ (n + 1) = 2 ^ n + 2 ^ n := by rw [pow_succ]; omega
    have hlo2 : lo < 2 ^ j := by omega
    have hsum : lo + 2 ^ n < 2 ^ j := by omega
    rw [Nat.testBit_lt_two_pow hlo2, Nat.testBit_lt_two_pow hsum]

/-- Recovering a value below `2^n` (for `n ≤ 32`) from its bits via the
shifted XOR fold of `ExtractMailboxID`. -/
theorem mailbox_fold_eq (n : ℕ) (hn : n ≤ 32) :
    ∀ y : ℕ, y < 2 ^ n →
      (List.range n).foldl
        (fun h i => h ^^^ (((y / 2 ^ i) % 2) <<< (i % 32))) 0 = y := by
  induction n with
  | zero =>
      intro y hy
      have : y = 0 := by omega
      subst this
      rfl
  | succ m ih =>
      intro y hy
      rw [List.range_succ, List.foldl_append, List.foldl_cons, List.foldl_nil]
      have hlo : y % 2 ^ m < 2 ^ m := Nat.mod_lt _ (by positivity)
      have hbits : ∀ i, i < m → y / 2 ^ i % 2 = (y % 2 ^ m) / 2 ^ i % 2 := by
        intro i hi
        conv_lhs => rw [← Nat.mod_add_div y (2 ^ m)]
        have h2 : 2 ^ m = 2 ^ i * 2 ^ (m - i) := by rw [← pow_add]; congr 1; omega
        have hsw : (2:ℕ) ^ (m - i) * (y / (2 ^ i * 2 ^ (m - i)))
            = (2 ^ (m - i - 1) * (y / (2 ^ i * 2 ^ (m - i)))) * 2 := by
          have hp : (2:ℕ) ^ (m - i) = 2 ^ (m - i - 1) * 2 := by
            rw [← pow_succ]; congr 1; omega
          rw [hp]; ring
        rw [h2, mul_assoc, Nat.add_mul_div_left _ _ (by positivity : (0:ℕ) < 2 ^ i),
          hsw, Nat.add_mul_mod_self_right]
      have hfold : (List.range m).foldl
          (fun h i => h ^^^ ((y / 2 ^ i % 2) <<< (i % 32))) 0
          = (List.range m).foldl
            (fun h i => h ^^^ (((y % 2 ^ m) / 2 ^ i % 2) <<< (i % 32))) 0 :=
        foldl_congr_mem (fun b i hi => by rw [hbits i (List.mem_range.mp hi)])
      rw [hfold, ih (by omega) _ hlo]
      rw [Nat.mod_eq_of_lt (show m < 32 by omega)]
      have hhi : y / 2 ^ m < 2 := by
        rw [Nat.div_lt_iff_lt_mul (by positivity : (0:ℕ) < 2 ^ m)]
        rw [pow_succ] at hy
        omega
      have hsplit : y / 2 ^ m = 0 ∨ y / 2 ^ m = 1 := by
        revert hhi
        generalize y / 2 ^ m = t
        intro hhi
        omega
      rcases hsplit with h0 | h1
      · rw [h0]
        conv_rhs => rw [← Nat.mod_add_div y (2 ^ m), h0, Nat.mul_zero, Nat.add_zero]
        simp
      · rw [h1]
        conv_rhs => rw [← Nat.mod_add_div y (2 ^ m), h1, Nat.mul_one]
        rw [show (1 : ℕ) % 2 = 1 from rfl, Nat.one_shiftLeft]
        exact xor_two_pow_of_lt hlo

theorem embed_coefficients (id : ℕ) (msg : Polynomial) :
    (embedMailboxID (id : ℤ) msg).coefficients
      = (List.range 64).map fun i => (((id / 2 ^ i) % 2 : ℕ) : ℤ) := by
  unfold embedMailboxID
  have hbit : ∀ i : ℕ, (((id : ℤ)).fdiv (2 ^ i)).emod 2 = (((id / 2 ^ i) % 2 : ℕ) : ℤ) := by
    intro i
    rw [Int.fdiv_eq_ediv _ (by positivity)]
    push_cast
    rfl
  have hmap : ((List.range 64).map fun i => (((id : ℤ)).fdiv (2 ^ i)).emod 2)
      = (List.range 64).map fun i => (((id / 2 ^ i) % 2 : ℕ) : ℤ) :=
    List.map_congr_left (fun i _ => hbit i)
  rw [hmap]
  have hgen : ∀ l : List ℤ, l.length = kDegree →
      (∀ c ∈ l, 0 ≤ c ∧ c < kModulus) →
      (Polynomial.ofList l).coefficients = l :=
    fun l hl hb => normCoeffs_of_canonical hl hb
  apply hgen
  · simp [kDegree]
  · intro c hc
    rcases List.mem_map.mp hc with ⟨i, _, rfl⟩
    constructor
    · positivity
    · have h2 : id / 2 ^ i % 2 < 2 := Nat.mod_lt _ (by norm_num)
      have h2' : ((id / 2 ^ i % 2 : ℕ) : ℤ) < 2 := by exact_mod_cast h2
      unfold kModulus
      omega

theorem extract_embed_fold (id : ℕ) (msg : Polynomial) :
    extractMailboxID (embedMailboxID (id : ℤ) msg)
      = (((List.range 64).foldl
          (fun h i => h ^^^ (((id / 2 ^ i) % 2) <<< (i % 32))) 0 : ℕ) : ℤ) := by
  unfold extractMailboxID
  refine congrArg (fun n : ℕ => (n : ℤ)) (foldl_congr_mem ?_)
  intro b i hi
  have hilt : i < 64 := List.mem_range.mp hi
  rw [embed_coefficients, getD_range_map' _ _ hilt, Int.toNat_natCast]

set_option maxRecDepth 8000 in
/-- C8 (counterexample): embedding the 64-bit id `2^32` and extracting
yields `1`, not `2^32`: the XOR fold shifts by `i mod 32`, folding the two
32-bit halves onto each other, so the pair is not reversible. -/
theorem C8_counterexample :
    extractMailboxID (embedMailboxID (2 ^ 32) Polynomial.zeroPoly) = 1 ∧
    (1 : ℤ) ≠ 2 ^ 32 := by
  constructor
  · decide
  · decide

/-- C8 (amended): `ExtractMailboxID(EmbedMailboxID(id, message))` recovers
`id` exactly for `0 ≤ id < 2^32` (the embed/extract pair is deterministic,
and on that range a reversible bit layout); for larger ids the
position-dependent shift `i mod 32` XOR-folds the high 32 bits onto the low
ones, so recovery fails in general. -/
theorem C8_embed_extract (id : ℕ) (hid : id < 2 ^ 32) (msg : Polynomial) :
    extractMailboxID (embedMailboxID (id : ℤ) msg) = (id : ℤ) := by
  rw [extract_embed_fold]
  congr 1
  rw [show (64 : ℕ) = 32 + 32 from rfl, List.range_add, List.foldl_append]
  have hsecond : ∀ (acc : ℕ) (x : ℕ), x ∈ (List.range 32).map (32 + ·) →
      (fun (h : ℕ) (i : ℕ) => h ^^^ ((id / 2 ^ i % 2) <<< (i % 32))) acc x = acc := by
    intro acc x hx
    rcases List.mem_map.mp hx with ⟨i, _, rfl⟩
    have hz : id / 2 ^ (32 + i) = 0 :=
      Nat.div_eq_of_lt (lt_of_lt_of_le hid (Nat.pow_le_pow_right (by norm_num) (by omega)))
    simp [hz]
  rw [foldl_id_of_mem hsecond]
  exact mailbox_fold_eq 32 le_rfl id hid

/-- C8 witness: the amended statement at the concrete id `5`. -/
theorem C8_witness :
    extractMailboxID (embedMailboxID ((5 : ℕ) : ℤ) Polynomial.zeroPoly) = ((5 : ℕ) : ℤ) :=
  C8_embed_extract 5 (by norm_num) Polynomial.zeroPoly

end F2chat
